import Mathlib

/-!
# Verification of the MAGDA undo engine and automation curve model

Shallow embedding of the core subsystems of the MAGDA DAW repository:

* the automation curve data model and its evaluation logic, translated from
  `AutomationCurveEditor::paintCurve` and
  `AutomationCurveEditor::updatePointPositions`
  (src/magda/daw/ui/components/automation/AutomationCurveEditor.cpp);
* the LFO waveform generator, translated from
  `ModulatorEngine::generateWaveform` (src/magda/daw/core/ModulatorEngine.hpp);
* the undo/redo command engine (`UndoManager`, `UndoableCommand`,
  `CompoundCommand`, `CompoundOperationScope`).  Only the class declaration
  with a few inline bodies (`canUndo`, `canRedo`, the default
  `canMergeWith`/`mergeWith`) is present in the sources
  (src/magica/daw/core/UndoManager.hpp); the out-of-line operation bodies are
  modelled from the specification, as marked on each definition.

Machine floating point (`double`/`float`) is idealised as `ℝ`;
`std::pow` with a real exponent is `Real.rpow` and `std::sin` is `Real.sin`.
-/

namespace Magda

/-! ## Automation curve data model

Types translated from the uses in AutomationCurveEditor.cpp (the defining
header `core/AutomationTypes.hpp` is not among the provided sources; every
field and constructor below is taken from an access in the .cpp file). -/

/-- Per-segment interpolation mode, as matched by the `switch` at
AutomationCurveEditor.cpp:98. -/
inductive AutomationCurveType where
  | Linear
  | Bezier
  | Step
  deriving DecidableEq, Repr

/-- Bezier handle offset: a time-delta / value-delta pair
(accesses `outHandle.time`, `outHandle.value` at
AutomationCurveEditor.cpp:141-145). -/
structure BezierHandle where
  time : ℝ
  value : ℝ

/-- An automation control point, with the fields read by
`AutomationCurveEditor::paintCurve`. -/
structure AutomationPoint where
  id : ℕ
  time : ℝ
  value : ℝ
  curveType : AutomationCurveType
  tension : ℝ
  inHandle : BezierHandle
  outHandle : BezierHandle

/-- Tension remap of the interpolation fraction, from the tension branch of
`AutomationCurveEditor::paintCurve` (AutomationCurveEditor.cpp:116-120):
for positive tension `pow(t, 1.0 + tension * 2.0)`, otherwise
`1.0 - pow(1.0 - t, 1.0 - tension * 2.0)`. -/
noncomputable def tensionCurvedFrac (tension frac : ℝ) : ℝ :=
  if 0 < tension then frac ^ (1 + tension * 2)
  else 1 - (1 - frac) ^ (1 - tension * 2)

/-- Value of a `Linear` segment at fraction `frac` between values `v0` and
`v1`: the near-zero-tension branch draws the straight line
(AutomationCurveEditor.cpp:101-103), the tension branch computes
`prevValue + curvedT * (value - prevValue)` (AutomationCurveEditor.cpp:122). -/
noncomputable def linearSegmentValue (tension frac v0 v1 : ℝ) : ℝ :=
  if |tension| < 0.001 then v0 + frac * (v1 - v0)
  else v0 + tensionCurvedFrac tension frac * (v1 - v0)

/-- Value of a `Bezier` segment at fraction `frac`: the cubic with control
values taken from `p`'s out-handle and `q`'s in-handle
(AutomationCurveEditor.cpp:134-149, control points `prevY - outHandle.value *
pixelsPerValue` and `y - inHandle.value * pixelsPerValue` in inverted pixel
space, hence `+` in value space), parameterised by `frac` as stated in the
specification's evaluation algorithm. -/
noncomputable def bezierSegmentValue (p q : AutomationPoint) (frac : ℝ) : ℝ :=
  (1 - frac) ^ 3 * p.value
    + 3 * (1 - frac) ^ 2 * frac * (p.value + p.outHandle.value)
    + 3 * (1 - frac) * frac ^ 2 * (q.value + q.inHandle.value)
    + frac ^ 3 * q.value

/-- Value of the segment that starts at `p` and ends at `q`, at time `t`,
dispatching on `p.curveType` exactly as the `switch (prevP.curveType)` at
AutomationCurveEditor.cpp:98-157 does; the fraction is
`(t - p.time) / (q.time - p.time)`.  A `Step` segment holds `p.value`
(the path only moves horizontally until the next point's x,
AutomationCurveEditor.cpp:152-156). -/
noncomputable def segmentValueAt (p q : AutomationPoint) (t : ℝ) : ℝ :=
  match p.curveType with
  | .Linear =>
      linearSegmentValue p.tension ((t - p.time) / (q.time - p.time))
        p.value q.value
  | .Bezier => bezierSegmentValue p q ((t - p.time) / (q.time - p.time))
  | .Step => p.value

/-- Curve value from point `p` onward: before `p.time` the curve is held at
`p.value` (the horizontal run from the left edge,
AutomationCurveEditor.cpp:77-82), inside the segment `[p.time, q.time)` the
segment formula applies, and past the last point the value is held
(the horizontal run to the right edge, AutomationCurveEditor.cpp:161-168). -/
noncomputable def evalFrom (p : AutomationPoint) :
    List AutomationPoint → ℝ → ℝ
  | [], _ => p.value
  | q :: rest, t =>
      if t < p.time then p.value
      else if t < q.time then segmentValueAt p q t
      else evalFrom q rest t

/-- Curve evaluation over a lane's sorted point list, read off from the path
built by `AutomationCurveEditor::paintCurve`; an empty lane has no value. -/
noncomputable def evaluateCurve (points : List AutomationPoint) (t : ℝ) :
    Option ℝ :=
  match points with
  | [] => none
  | p :: rest => some (evalFrom p rest t)

/-- The tension remap exactly as the specification words it: `frac^(1+2τ)`
for positive tension `τ` and `1 - (1-frac)^(1-2τ)` for negative tension
(identity fraction in the unspecified `τ = 0` gap).  Written from the spec
text to be compared with `tensionCurvedFrac`, which is written from the
source. -/
noncomputable def specCurvedFrac (tau frac : ℝ) : ℝ :=
  if 0 < tau then frac ^ ((1 : ℝ) + 2 * tau)
  else if tau < 0 then 1 - (1 - frac) ^ ((1 : ℝ) - 2 * tau)
  else frac

/-- First point of the spec's tension scenario: `(0s, 0.0, Linear)` with
tension `0.5`. -/
noncomputable def scenarioP0 : AutomationPoint :=
  ⟨0, 0, 0, .Linear, 0.5, ⟨0, 0⟩, ⟨0, 0⟩⟩

/-- Second point of the spec's tension scenario: `(2s, 1.0, Linear)`. -/
noncomputable def scenarioP1 : AutomationPoint :=
  ⟨1, 2, 1, .Linear, 0, ⟨0, 0⟩, ⟨0, 0⟩⟩

/-- A concrete `Step` point at time `0` with value `3/10`, for the concrete
step-segment and hold-outside scenarios. -/
noncomputable def stepScenarioP : AutomationPoint :=
  ⟨0, 0, 3/10, .Step, 0, ⟨0, 0⟩, ⟨0, 0⟩⟩

/-- A concrete follow-up point at time `1` with value `7/10`. -/
noncomputable def stepScenarioQ : AutomationPoint :=
  ⟨1, 1, 7/10, .Linear, 0, ⟨0, 0⟩, ⟨0, 0⟩⟩

/-! ## LFO waveform generator (`ModulatorEngine`) -/

/-- Modelled from the spec: `ModInfo.hpp`, which defines the `LFOWaveform`
enum, is not among the provided sources.  The constructors are the cases of
the `switch` in `ModulatorEngine::generateWaveform`
(ModulatorEngine.hpp:65-94); `Other` stands for any further enum value, which
that switch sends to its `default` branch. -/
inductive LFOWaveform where
  | Sine
  | Triangle
  | Square
  | Saw
  | ReverseSaw
  | Other
  deriving DecidableEq, Repr

/-- `ModulatorEngine::generateWaveform` (ModulatorEngine.hpp:62-95):
output value for a waveform shape at a phase. -/
noncomputable def generateWaveform (waveform : LFOWaveform) (phase : ℝ) : ℝ :=
  match waveform with
  | .Sine => (Real.sin (Real.pi * 2 * phase) + 1) * 0.5
  | .Triangle => if phase < 0.5 then phase * 2 else 2 - phase * 2
  | .Square => if phase < 0.5 then 1 else 0
  | .Saw => phase
  | .ReverseSaw => 1 - phase
  | .Other => 0.5

/-! ## Undo/redo command engine

`UndoableCommand` (UndoManager.hpp:17-53) is an interface with `execute`,
`undo`, `getDescription` and the merge hooks; `CompoundCommand`
(UndoManager.hpp:194-208) is the command holding a list of children.  A
command is embedded as its pair of state transformations on an abstract
domain-model type `S`, and a compound as its child list. -/

/-- A command: either an atomic command carrying its `execute` and `undo`
state transformations, or a `CompoundCommand` over a child list. -/
inductive Cmd (S : Type) where
  | atom (description : String) (run : S → S) (unrun : S → S)
  | compound (description : String) (children : List (Cmd S))

/-- `UndoableCommand::canMergeWith` — the default implementation in the
sources returns `false` ("Default: no merging", UndoManager.hpp:44-46); no
override is present in the provided sources. -/
def Cmd.canMergeWith {S : Type} (_c _other : Cmd S) : Bool := false

/-- `UndoableCommand::mergeWith` — the default implementation in the sources
is a no-op (UndoManager.hpp:52). -/
def Cmd.mergeWith {S : Type} (c _other : Cmd S) : Cmd S := c

mutual
/-- `UndoableCommand::execute`; for a compound, `CompoundCommand::execute`
runs the children in forward order (spec: "execute() runs children in
forward order"). -/
def Cmd.execute {S : Type} : Cmd S → S → S
  | .atom _ run _, s => run s
  | .compound _ cs, s => Cmd.executeList cs s

/-- Forward-order execution of a command list. -/
def Cmd.executeList {S : Type} : List (Cmd S) → S → S
  | [], s => s
  | c :: cs, s => Cmd.executeList cs (Cmd.execute c s)
end

mutual
/-- `UndoableCommand::undo`; for a compound, `CompoundCommand::undo` runs
the children in reverse order (spec: "undo() runs children in reverse
order"). -/
def Cmd.undo {S : Type} : Cmd S → S → S
  | .atom _ _ unrun, s => unrun s
  | .compound _ cs, s => Cmd.undoList cs s

/-- Reverse-order undo of a command list: later commands are undone first. -/
def Cmd.undoList {S : Type} : List (Cmd S) → S → S
  | [], s => s
  | c :: cs, s => Cmd.undo c (Cmd.undoList cs s)
end

/-- A command whose `undo` exactly reverses its `execute`, as the command
contract demands ("A command owns all state needed to replay and reverse its
effect"). -/
def Cmd.Reversible {S : Type} (c : Cmd S) : Prop :=
  ∀ s, c.undo (c.execute s) = s

/-- `UndoManager`'s private state (UndoManager.hpp:178-186): the two
double-ended stacks (head = most recent entry), the compound-recording depth
counter, the transient compound buffer with its description, and the history
cap (`maxUndoSteps_ = 100` by default). -/
structure UndoManagerState (S : Type) where
  undoStack : List (Cmd S)
  redoStack : List (Cmd S)
  compoundDepth : ℕ
  compoundDescription : String
  compoundCommands : List (Cmd S)
  maxUndoSteps : ℕ

/-- A freshly constructed manager: empty stacks, no open compound, history
cap `max`. -/
def initialState (S : Type) (max : ℕ) : UndoManagerState S :=
  ⟨[], [], 0, "", [], max⟩

/-- `UndoManager::canUndo` (UndoManager.hpp:108-110):
`!undoStack_.empty()`. -/
def canUndo {S : Type} (m : UndoManagerState S) : Bool :=
  !m.undoStack.isEmpty

/-- `UndoManager::canRedo` (UndoManager.hpp:115-117):
`!redoStack_.empty()`. -/
def canRedo {S : Type} (m : UndoManagerState S) : Bool :=
  !m.redoStack.isEmpty

/-- Modelled from the spec: the body of `UndoManager::trimUndoStack` is not
among the provided sources; the spec says the undo stack is trimmed "to
`maxUndoSteps` (drop oldest)".  With the head of the list as the newest
entry, dropping oldest entries is keeping the `maxUndoSteps` newest. -/
def trimUndoStack {S : Type} (m : UndoManagerState S) : UndoManagerState S :=
  { m with undoStack := m.undoStack.take m.maxUndoSteps }

/-- Modelled from the spec: the push path shared by `executeCommand` and the
outermost `endCompoundOperation` (their bodies are not among the provided
sources) — "if a mergeable predecessor exists at the top of `undoStack`
(`top.canMergeWith(cmd)` true) merge into it (`top.mergeWith(cmd)`) instead
of pushing a new entry; else push `cmd` onto `undoStack`.  Clears
`redoStack`.  Trims `undoStack` to `maxUndoSteps`." -/
def pushCommand {S : Type} (cmd : Cmd S) (m : UndoManagerState S) :
    UndoManagerState S :=
  let m' :=
    match m.undoStack with
    | top :: rest =>
        if top.canMergeWith cmd then
          { m with undoStack := top.mergeWith cmd :: rest }
        else
          { m with undoStack := cmd :: m.undoStack }
    | [] => { m with undoStack := [cmd] }
  trimUndoStack { m' with redoStack := [] }

/-- Modelled from the spec: the body of `UndoManager::executeCommand` is not
among the provided sources — "if a compound operation is open (depth > 0),
`cmd.execute()` runs immediately and `cmd` is appended to the open compound's
buffer rather than the main stack.  Otherwise `cmd.execute()` runs", then the
command goes through the merge/clear/trim push path. -/
def executeCommand {S : Type} (cmd : Cmd S) :
    UndoManagerState S × S → UndoManagerState S × S :=
  fun st =>
    if 0 < st.1.compoundDepth then
      ({ st.1 with compoundCommands := st.1.compoundCommands ++ [cmd] },
        cmd.execute st.2)
    else
      (pushCommand cmd st.1, cmd.execute st.2)

/-- Modelled from the spec: the body of `UndoManager::undo` is not among the
provided sources — "fails (returns false) if `undoStack` empty.  Otherwise
pops top, calls `top.undo()`, pushes it onto `redoStack`, notifies
listeners, returns true." -/
def undoOp {S : Type} (st : UndoManagerState S × S) :
    Bool × UndoManagerState S × S :=
  match st.1.undoStack with
  | [] => (false, st)
  | top :: rest =>
      (true,
        { st.1 with undoStack := rest, redoStack := top :: st.1.redoStack },
        top.undo st.2)

/-- Modelled from the spec: the body of `UndoManager::redo` is not among the
provided sources — "fails if `redoStack` empty.  Otherwise pops top, calls
`top.execute()`, pushes onto `undoStack`, notifies listeners, returns
true." -/
def redoOp {S : Type} (st : UndoManagerState S × S) :
    Bool × UndoManagerState S × S :=
  match st.1.redoStack with
  | [] => (false, st)
  | top :: rest =>
      (true,
        { st.1 with redoStack := rest, undoStack := top :: st.1.undoStack },
        top.execute st.2)

/-- Modelled from the spec: the body of `UndoManager::beginCompoundOperation`
is not among the provided sources — nestable via the depth counter, "nested
`beginCompoundOperation` calls share one buffer and one description (the
outermost wins)". -/
def beginCompoundOperation {S : Type} (desc : String)
    (m : UndoManagerState S) : UndoManagerState S :=
  if m.compoundDepth = 0 then
    { m with compoundDepth := 1, compoundDescription := desc,
             compoundCommands := [] }
  else
    { m with compoundDepth := m.compoundDepth + 1 }

/-- Modelled from the spec: the body of `UndoManager::endCompoundOperation`
is not among the provided sources — "only the outermost
`endCompoundOperation()` materializes a `CompoundCommand` (unless the
buffered command list is empty, in which case nothing is pushed) and pushes
it through the same merge/trim/notify path as `executeCommand`".  Calling it
with no matching begin is a contract violation and is modelled as a no-op. -/
def endCompoundOperation {S : Type} (m : UndoManagerState S) :
    UndoManagerState S :=
  if m.compoundDepth = 0 then m
  else if m.compoundDepth = 1 then
    if m.compoundCommands.isEmpty then
      { m with compoundDepth := 0, compoundCommands := [] }
    else
      pushCommand (.compound m.compoundDescription m.compoundCommands)
        { m with compoundDepth := 0, compoundCommands := [] }
  else
    { m with compoundDepth := m.compoundDepth - 1 }

/-- Modelled from the spec: `UndoManager::clearHistory` "empties both
stacks, no side-effecting execute/undo calls". -/
def clearHistory {S : Type} (m : UndoManagerState S) : UndoManagerState S :=
  { m with undoStack := [], redoStack := [] }

/-- A public mutating entry point of the engine, as issued by the UI. -/
inductive UndoOp (S : Type) where
  | exec (cmd : Cmd S)
  | undo
  | redo
  | beginComp (desc : String)
  | endComp
  | clear

/-- Whether an entry point is the `undo()` call. -/
def UndoOp.isUndo {S : Type} : UndoOp S → Bool
  | .undo => true
  | _ => false

/-- Apply one entry point to the combined manager/domain state (boolean
results of `undo`/`redo` are dropped here; they are stated separately). -/
def applyOp {S : Type} : UndoOp S → UndoManagerState S × S →
    UndoManagerState S × S
  | .exec cmd, st => executeCommand cmd st
  | .undo, st => (undoOp st).2
  | .redo, st => (redoOp st).2
  | .beginComp desc, st => (beginCompoundOperation desc st.1, st.2)
  | .endComp, st => (endCompoundOperation st.1, st.2)
  | .clear, st => (clearHistory st.1, st.2)

/-- Run a sequence of entry points; every reachable manager state is
`(runOps ops (initialState S max, s0))` for some `ops`. -/
def runOps {S : Type} (ops : List (UndoOp S))
    (st : UndoManagerState S × S) : UndoManagerState S × S :=
  ops.foldl (fun st op => applyOp op st) st

/-- Apply `undo()` `n` times. -/
def undoN {S : Type} : ℕ → UndoManagerState S × S → UndoManagerState S × S
  | 0, st => st
  | n + 1, st => undoN n (undoOp st).2

/-- An atomic command on an integer domain model adding `k` (undo subtracts
`k` again); used for the concrete scenarios. -/
def addCmd (k : ℤ) : Cmd ℤ :=
  .atom "add" (fun s => s + k) (fun s => s - k)

/-! ## Drag-preview state of the curve editor

The editor keeps the in-progress drag position in `previewPointId_`,
`previewTime_`, `previewValue_`, separate from the committed point list it
reads back from the manager (`AutomationCurveEditor::getPoints`).  The
`INVALID_AUTOMATION_POINT_ID` sentinel is modelled as `none`. -/

/-- The preview-relevant fields of `AutomationCurveEditor`
(AutomationCurveEditor.hpp:97, and the preview members set at
AutomationCurveEditor.cpp:327-329). -/
structure EditorState where
  laneId : ℕ
  previewPointId : Option ℕ
  previewTime : ℝ
  previewValue : ℝ

/-- `AutomationCurveEditor::automationPointDragPreview`
(AutomationCurveEditor.cpp:321-342): ignore other lanes, otherwise record
the preview position; only rendering state is touched. -/
noncomputable def editorDragPreview (e : EditorState) (laneId pointId : ℕ)
    (previewTime previewValue : ℝ) : EditorState :=
  if laneId ≠ e.laneId then e
  else
    { e with previewPointId := some pointId, previewTime := previewTime,
             previewValue := previewValue }

/-- `AutomationCurveEditor::automationPointsChanged`
(AutomationCurveEditor.cpp:313-319): when the lane's committed points
change, the preview is cleared (`previewPointId_ =
INVALID_AUTOMATION_POINT_ID`). -/
noncomputable def editorPointsChanged (e : EditorState) (laneId : ℕ) :
    EditorState :=
  if laneId = e.laneId then { e with previewPointId := none } else e

/-- The combined system around one lane: the lane's committed point list and
the command engine (owned by the managers), plus the editor's rendering
state. -/
structure AutomationSystem (S : Type) where
  committedPoints : List AutomationPoint
  history : UndoManagerState S
  editor : EditorState

/-- Modelled from the spec: `AutomationManager::notifyPointDragPreview` is
not among the provided sources — it is "a non-committing, high-frequency,
UI-only notification" that "does **not** go through the command engine and
does not produce an undo step", so it forwards the preview to the listeners
(here the editor's `automationPointDragPreview`, which is in the sources)
and touches neither the committed point list nor the history. -/
noncomputable def notifyPointDragPreview {S : Type} (sys : AutomationSystem S)
    (laneId pointId : ℕ) (previewTime previewValue : ℝ) :
    AutomationSystem S :=
  { sys with
      editor := editorDragPreview sys.editor laneId pointId
        previewTime previewValue }

/-- A committed change of a lane's points reaches the editor through the
"lane points changed" notification (`automationPointsChanged`, in the
sources), which clears the preview. -/
noncomputable def notifyPointsChanged {S : Type} (sys : AutomationSystem S)
    (laneId : ℕ) : AutomationSystem S :=
  { sys with editor := editorPointsChanged sys.editor laneId }

/-- Modelled from the spec: the drag-cancel path is not among the provided
sources — "'cancelling' a drag gesture before commit is handled entirely by
discarding preview state without ever calling `executeCommand`", and the
implementation "must clear the preview once the corresponding commit or
cancel occurs". -/
noncomputable def cancelDragGesture {S : Type} (sys : AutomationSystem S) :
    AutomationSystem S :=
  { sys with editor := { sys.editor with previewPointId := none } }

/-- Fold a whole sequence of drag-preview notifications
(lane, point, time, value) over the system. -/
noncomputable def runPreviews {S : Type}
    (events : List (ℕ × ℕ × ℝ × ℝ)) (sys : AutomationSystem S) :
    AutomationSystem S :=
  events.foldl
    (fun a e => notifyPointDragPreview a e.1 e.2.1 e.2.2.1 e.2.2.2) sys

/-! ## Supporting lemmas: curve evaluation -/

/-- The tension remap sends fraction `0` to `0`. -/
lemma tensionCurvedFrac_zero (tension : ℝ) : tensionCurvedFrac tension 0 = 0 := by
  unfold tensionCurvedFrac
  split
  · next h => rw [Real.zero_rpow (ne_of_gt (by linarith : (0:ℝ) < 1 + tension * 2))]
  · simp [Real.one_rpow]

/-- The tension remap sends fraction `1` to `1` (for nonzero tension). -/
lemma tensionCurvedFrac_one (tension : ℝ) (h : tension ≠ 0) :
    tensionCurvedFrac tension 1 = 1 := by
  unfold tensionCurvedFrac
  split
  · simp [Real.one_rpow]
  · next hn =>
      have ht : tension < 0 := lt_of_le_of_ne (not_lt.mp hn) h
      rw [show (1:ℝ) - 1 = 0 by ring,
        Real.zero_rpow (ne_of_gt (by linarith : (0:ℝ) < 1 - tension * 2))]
      ring

/-- Evaluating any segment at its own left endpoint's time gives the left
point's value, whatever the curve type. -/
lemma segmentValueAt_left (p q : AutomationPoint) :
    segmentValueAt p q p.time = p.value := by
  rcases p with ⟨pid, pt, pv, pct, ptn, pih, poh⟩
  have hfrac : (pt - pt) / (q.time - pt) = 0 := by simp
  cases pct with
  | Linear =>
      simp only [segmentValueAt, hfrac, linearSegmentValue, tensionCurvedFrac_zero]
      split <;> ring
  | Bezier =>
      simp only [segmentValueAt, hfrac, bezierSegmentValue]
      ring
  | Step => simp [segmentValueAt]

/-- Evaluation skips every point whose successor's time is still at or below
the query time: the curve value from `a` over `pre ++ p :: l` at a time `t`
past `p.time` is the value from `p` over `l`. -/
lemma evalFrom_skip (p : AutomationPoint) (pre : List AutomationPoint)
    (a : AutomationPoint) (l : List AutomationPoint) (t : ℝ)
    (hpw : (a :: (pre ++ p :: l)).Pairwise (fun x y => x.time ≤ y.time))
    (ht : p.time ≤ t) :
    evalFrom a (pre ++ p :: l) t = evalFrom p l t := by
  induction pre generalizing a with
  | nil =>
      have hap : a.time ≤ p.time := (List.pairwise_cons.mp hpw).1 p (by simp)
      simp only [List.nil_append, evalFrom]
      rw [if_neg (not_lt.mpr (le_trans hap ht)), if_neg (not_lt.mpr ht)]
  | cons b pre' ih =>
      have hap : a.time ≤ p.time :=
        (List.pairwise_cons.mp hpw).1 p (by simp)
      have hbp : b.time ≤ p.time :=
        (List.pairwise_cons.mp hpw.of_cons).1 p (by simp)
      simp only [List.cons_append, evalFrom]
      rw [if_neg (not_lt.mpr (le_trans hap ht)),
        if_neg (not_lt.mpr (le_trans hbp ht))]
      exact ih b hpw.of_cons

/-- Evaluation of a whole sorted lane at a time past `p.time` reduces to
evaluation from `p`. -/
lemma evaluateCurve_skip (p : AutomationPoint) (pre l : List AutomationPoint)
    (t : ℝ)
    (hpw : (pre ++ p :: l).Pairwise (fun x y => x.time ≤ y.time))
    (ht : p.time ≤ t) :
    evaluateCurve (pre ++ p :: l) t = some (evalFrom p l t) := by
  cases pre with
  | nil => rfl
  | cons a pre' =>
      simp only [List.cons_append, evaluateCurve]
      rw [evalFrom_skip p pre' a l t (by simpa using hpw) ht]

/-! ## Claim theorems: curve evaluation -/

/-- C1: for a Linear segment with tension `τ`, `|τ|` not approximately `0`,
and a fraction in `[0,1]`, the evaluated value is
`p.value + curvedFrac * (q.value - p.value)` with the spec's `curvedFrac`
(`frac^(1+2τ)` for `τ > 0`, `1 - (1-frac)^(1-2τ)` for `τ < 0`); the remap
preserves the endpoints (`curvedFrac 0 = 0`, `curvedFrac 1 = 1`); and the
lane `{(0s, 0.0, Linear, tension 0.5), (2s, 1.0, Linear)}` evaluates to
`0.25` at `t = 1.0`. -/
theorem linear_tension_remap :
    (∀ tau frac v0 v1 : ℝ, 0.001 ≤ |tau| → 0 ≤ frac → frac ≤ 1 →
        linearSegmentValue tau frac v0 v1
          = v0 + specCurvedFrac tau frac * (v1 - v0))
    ∧ (∀ tau : ℝ, 0.001 ≤ |tau| →
        specCurvedFrac tau 0 = 0 ∧ specCurvedFrac tau 1 = 1)
    ∧ evaluateCurve [scenarioP0, scenarioP1] 1 = some 0.25 := by
  have hzero : ∀ tau : ℝ, 0.001 ≤ |tau| → tau ≠ 0 := by
    intro tau htau h
    rw [h] at htau
    norm_num at htau
  refine ⟨?_, ?_, ?_⟩
  · intro tau frac v0 v1 htau _ _
    have hne : ¬ |tau| < 0.001 := not_lt.mpr htau
    unfold linearSegmentValue tensionCurvedFrac specCurvedFrac
    rw [if_neg hne]
    rcases lt_or_gt_of_ne (hzero tau htau) with hneg | hpos
    · rw [if_neg (not_lt.mpr hneg.le), if_neg (not_lt.mpr hneg.le),
        if_pos hneg, show (1:ℝ) - tau * 2 = 1 - 2 * tau by ring]
    · rw [if_pos hpos, if_pos hpos,
        show (1:ℝ) + tau * 2 = 1 + 2 * tau by ring]
  · intro tau htau
    unfold specCurvedFrac
    rcases lt_or_gt_of_ne (hzero tau htau) with hneg | hpos
    · constructor
      · rw [if_neg (not_lt.mpr hneg.le), if_pos hneg]
        simp [Real.one_rpow]
      · rw [if_neg (not_lt.mpr hneg.le), if_pos hneg,
          show (1:ℝ) - 1 = 0 by ring,
          Real.zero_rpow (ne_of_gt (by linarith : (0:ℝ) < 1 - 2 * tau))]
        ring
    · constructor
      · rw [if_pos hpos,
          Real.zero_rpow (ne_of_gt (by linarith : (0:ℝ) < 1 + 2 * tau))]
      · rw [if_pos hpos]
        exact Real.one_rpow _
  · show evaluateCurve [scenarioP0, scenarioP1] 1 = some 0.25
    simp only [evaluateCurve, evalFrom, scenarioP0, scenarioP1]
    rw [if_neg (by norm_num), if_pos (by norm_num)]
    simp only [segmentValueAt, linearSegmentValue, tensionCurvedFrac]
    rw [if_neg (by norm_num [abs_of_pos]), if_pos (by norm_num)]
    rw [show ((1:ℝ) - 0) / (2 - 0) = 1/2 by norm_num,
      show (1:ℝ) + 0.5 * 2 = ((2:ℕ):ℝ) by norm_num, Real.rpow_natCast]
    norm_num

/-- Witness for C1 at `τ = 0.5`, `frac = 1/2`, endpoint values `0` and
`1`. -/
theorem linear_tension_remap_witness :
    ((0.001 : ℝ) ≤ |(0.5 : ℝ)| ∧ (0:ℝ) ≤ 1/2 ∧ (1/2 : ℝ) ≤ 1)
    ∧ linearSegmentValue 0.5 (1/2) 0 1
        = 0 + specCurvedFrac 0.5 (1/2) * (1 - 0)
    ∧ specCurvedFrac 0.5 0 = 0 ∧ specCurvedFrac 0.5 1 = 1 :=
  ⟨⟨by norm_num [abs_of_pos], by norm_num, by norm_num⟩,
    linear_tension_remap.1 0.5 (1/2) 0 1 (by norm_num [abs_of_pos])
      (by norm_num) (by norm_num),
    (linear_tension_remap.2.1 0.5 (by norm_num [abs_of_pos])).1,
    (linear_tension_remap.2.1 0.5 (by norm_num [abs_of_pos])).2⟩

/-- C7: on a sorted lane, a `Step` segment between consecutive points `p`
and `q` evaluates to exactly `p.value` for every `t` with
`p.time ≤ t < q.time`, and to `q.value` at exactly `t = q.time`. -/
theorem step_segment_eval (pre : List AutomationPoint)
    (p q : AutomationPoint) (rest : List AutomationPoint) (t : ℝ)
    (hpw : (pre ++ p :: q :: rest).Pairwise (fun x y => x.time < y.time))
    (hstep : p.curveType = .Step) :
    (p.time ≤ t → t < q.time →
      evaluateCurve (pre ++ p :: q :: rest) t = some p.value)
    ∧ evaluateCurve (pre ++ p :: q :: rest) q.time = some q.value := by
  have hle : (pre ++ p :: q :: rest).Pairwise (fun x y => x.time ≤ y.time) :=
    hpw.imp le_of_lt
  constructor
  · intro ht1 ht2
    rw [evaluateCurve_skip p pre (q :: rest) t hle ht1]
    simp only [evalFrom]
    rw [if_neg (not_lt.mpr ht1), if_pos ht2]
    rcases p with ⟨pid, pt, pv, pct, ptn, pih, poh⟩
    cases hstep
    simp [segmentValueAt]
  · have hassoc : pre ++ p :: q :: rest = (pre ++ [p]) ++ q :: rest := by
      simp
    rw [hassoc,
      evaluateCurve_skip q (pre ++ [p]) rest q.time (by rw [← hassoc]; exact hle)
        le_rfl]
    cases rest with
    | nil => rfl
    | cons r rest' =>
        have hsuffix : (p :: q :: r :: rest').Pairwise
            (fun x y => x.time < y.time) := (List.pairwise_append.mp hpw).2.1
        have hqr : q.time < r.time :=
          (List.pairwise_cons.mp hsuffix.of_cons).1 r (by simp)
        simp only [evalFrom]
        rw [if_neg (lt_irrefl q.time), if_pos hqr, segmentValueAt_left]

/-- Witness for C7: step segment `{(0, 0.3, Step), (1, 0.7)}` evaluated at
`t = 1/2` and at `t = 1`. -/
theorem step_segment_eval_witness :
    ([stepScenarioP, stepScenarioQ].Pairwise (fun x y => x.time < y.time)
      ∧ stepScenarioP.curveType = .Step
      ∧ stepScenarioP.time ≤ (1/2 : ℝ) ∧ (1/2 : ℝ) < stepScenarioQ.time)
    ∧ evaluateCurve [stepScenarioP, stepScenarioQ] (1/2)
        = some stepScenarioP.value
    ∧ evaluateCurve [stepScenarioP, stepScenarioQ] stepScenarioQ.time
        = some stepScenarioQ.value :=
  ⟨⟨by norm_num [List.pairwise_cons, stepScenarioP, stepScenarioQ], rfl,
      by norm_num [stepScenarioP], by norm_num [stepScenarioQ]⟩,
    (step_segment_eval [] stepScenarioP stepScenarioQ [] (1/2)
        (by norm_num [List.pairwise_cons, stepScenarioP, stepScenarioQ])
        rfl).1
      (by norm_num [stepScenarioP]) (by norm_num [stepScenarioQ]),
    (step_segment_eval [] stepScenarioP stepScenarioQ [] (1/2)
        (by norm_num [List.pairwise_cons, stepScenarioP, stepScenarioQ])
        rfl).2⟩

/-- C8: a non-empty lane is held flat outside the span of its points —
strictly before the first point's time the first point's value, at or after
the last point's time the last point's value. -/
theorem curve_flat_outside (p : AutomationPoint)
    (rest : List AutomationPoint) (t : ℝ) :
    (t < p.time → evaluateCurve (p :: rest) t = some p.value)
    ∧ ((p :: rest).Pairwise (fun x y => x.time ≤ y.time) →
        ((p :: rest).getLastD p).time ≤ t →
        evaluateCurve (p :: rest) t = some ((p :: rest).getLastD p).value) := by
  constructor
  · intro ht
    cases rest with
    | nil => rfl
    | cons q rest' =>
        simp only [evaluateCurve, evalFrom]
        rw [if_pos ht]
  · intro hpw hlast
    rcases List.eq_nil_or_concat rest with rfl | ⟨L, b, rfl⟩
    · simp [evaluateCurve, evalFrom, List.getLastD]
    · simp only [List.concat_eq_append] at hpw hlast ⊢
      have hshape : p :: (L ++ [b]) = (p :: L) ++ b :: [] := by simp
      have hb : ((p :: (L ++ [b])).getLastD p) = b := by
        rw [show p :: (L ++ [b]) = (p :: L) ++ [b] by simp,
          List.getLastD_concat]
      rw [hb] at hlast ⊢
      rw [hshape, evaluateCurve_skip b (p :: L) [] t (by simpa using hpw) hlast]
      rfl

/-- Witness for C8: lane `{(0, 0.3, Step), (1, 0.7)}` evaluated at `t = -1`
(before the first point) and `t = 5` (after the last point). -/
theorem curve_flat_outside_witness :
    ((-1 : ℝ) < stepScenarioP.time
      ∧ [stepScenarioP, stepScenarioQ].Pairwise (fun x y => x.time ≤ y.time)
      ∧ ([stepScenarioP, stepScenarioQ].getLastD stepScenarioP).time ≤ (5 : ℝ))
    ∧ evaluateCurve [stepScenarioP, stepScenarioQ] (-1)
        = some stepScenarioP.value
    ∧ evaluateCurve [stepScenarioP, stepScenarioQ] 5
        = some (([stepScenarioP, stepScenarioQ].getLastD stepScenarioP).value) :=
  ⟨⟨by norm_num [stepScenarioP], by
      norm_num [List.pairwise_cons, stepScenarioP, stepScenarioQ], by
      norm_num [List.getLastD, stepScenarioP, stepScenarioQ]⟩,
    (curve_flat_outside stepScenarioP [stepScenarioQ] (-1)).1
      (by norm_num [stepScenarioP]),
    (curve_flat_outside stepScenarioP [stepScenarioQ] 5).2
      (by norm_num [List.pairwise_cons, stepScenarioP, stepScenarioQ])
      (by norm_num [List.getLastD, stepScenarioP, stepScenarioQ])⟩

/-- C10: for every waveform and phase in `[0,1]`, the generator output lies
in `[0,1]`; `Saw` returns the phase, `ReverseSaw` its reflection, `Square`
is `1` exactly below phase `0.5` and `0` from there on, `Triangle` ramps
`2*phase` up then `2 - 2*phase` down, and an unrecognized waveform yields
`0.5`. -/
theorem generateWaveform_spec (phase : ℝ) (h0 : 0 ≤ phase) (h1 : phase ≤ 1) :
    (∀ w, 0 ≤ generateWaveform w phase ∧ generateWaveform w phase ≤ 1)
    ∧ generateWaveform .Saw phase = phase
    ∧ generateWaveform .ReverseSaw phase = 1 - phase
    ∧ generateWaveform .Square phase = (if phase < 0.5 then 1 else 0)
    ∧ generateWaveform .Triangle phase
        = (if phase < 0.5 then 2 * phase else 2 - 2 * phase)
    ∧ generateWaveform .Other phase = 0.5 := by
  refine ⟨?_, rfl, rfl, rfl, ?_, rfl⟩
  · intro w
    cases w with
    | Sine =>
        have hs1 : Real.sin (Real.pi * 2 * phase) ≤ 1 := Real.sin_le_one _
        have hs2 : -1 ≤ Real.sin (Real.pi * 2 * phase) :=
          Real.neg_one_le_sin _
        constructor
        · simp only [generateWaveform]
          nlinarith
        · simp only [generateWaveform]
          nlinarith
    | Triangle =>
        simp only [generateWaveform]
        split
        · next h => constructor <;> nlinarith
        · next h =>
            have : (0.5 : ℝ) ≤ phase := not_lt.mp h
            constructor <;> nlinarith
    | Square =>
        simp only [generateWaveform]
        split <;> norm_num
    | Saw => exact ⟨h0, h1⟩
    | ReverseSaw =>
        simp only [generateWaveform]
        constructor <;> linarith
    | Other =>
        simp only [generateWaveform]
        norm_num
  · simp only [generateWaveform]
    split <;> ring

/-- Witness for C10 at `phase = 1/4`. -/
theorem generateWaveform_spec_witness :
    ((0 : ℝ) ≤ 1/4 ∧ (1/4 : ℝ) ≤ 1)
    ∧ (∀ w, 0 ≤ generateWaveform w (1/4) ∧ generateWaveform w (1/4) ≤ 1)
    ∧ generateWaveform .Saw (1/4) = 1/4 :=
  ⟨⟨by norm_num, by norm_num⟩,
    (generateWaveform_spec (1/4) (by norm_num) (by norm_num)).1,
    (generateWaveform_spec (1/4) (by norm_num) (by norm_num)).2.1⟩

/-! ## Supporting lemmas: command engine -/

/-- With the sources' default `canMergeWith` (always `false`), the push path
conses the command and trims, after clearing the redo stack. -/
lemma pushCommand_eq {S : Type} (c : Cmd S) (m : UndoManagerState S) :
    pushCommand c m
      = { m with undoStack := (c :: m.undoStack).take m.maxUndoSteps,
                 redoStack := [] } := by
  rcases m with ⟨u, r, d, cd, cc, mx⟩
  cases u <;> simp [pushCommand, trimUndoStack, Cmd.canMergeWith]

/-- `executeCommand` outside a compound operation: execute, push, clear
redo, trim. -/
lemma executeCommand_depth0 {S : Type} (c : Cmd S) (m : UndoManagerState S)
    (s : S) (h : m.compoundDepth = 0) :
    executeCommand c (m, s)
      = ({ m with undoStack := (c :: m.undoStack).take m.maxUndoSteps,
                  redoStack := [] }, c.execute s) := by
  simp [executeCommand, h, pushCommand_eq]

/-- `executeCommand` inside an open compound operation: execute and buffer
only. -/
lemma executeCommand_depthPos {S : Type} (c : Cmd S) (m : UndoManagerState S)
    (s : S) (h : 0 < m.compoundDepth) :
    executeCommand c (m, s)
      = ({ m with compoundCommands := m.compoundCommands ++ [c] },
          c.execute s) := by
  simp [executeCommand, h]

/-- Unfolding lemma: running a cons of operations. -/
lemma runOps_cons {S : Type} (op : UndoOp S) (ops : List (UndoOp S))
    (st : UndoManagerState S × S) :
    runOps (op :: ops) st = runOps ops (applyOp op st) := rfl

/-- Unfolding lemma: running an append of operation lists. -/
lemma runOps_append {S : Type} (l1 l2 : List (UndoOp S))
    (st : UndoManagerState S × S) :
    runOps (l1 ++ l2) st = runOps l2 (runOps l1 st) := by
  simp [runOps, List.foldl_append]

/-- Forward execution distributes over list append. -/
lemma executeList_append {S : Type} (xs ys : List (Cmd S)) (s : S) :
    Cmd.executeList (xs ++ ys) s
      = Cmd.executeList ys (Cmd.executeList xs s) := by
  induction xs generalizing s with
  | nil => rfl
  | cons c rest ih => simp [Cmd.executeList, ih]

/-- Executing a command list outside a compound, with room left under the
history cap: every command is pushed, newest first, and the domain model is
folded forward. -/
lemma runOps_execs {S : Type} (cmds : List (Cmd S)) (m : UndoManagerState S)
    (s : S) (hd : m.compoundDepth = 0) (hr : m.redoStack = [])
    (hlen : m.undoStack.length + cmds.length ≤ m.maxUndoSteps) :
    runOps (cmds.map UndoOp.exec) (m, s)
      = ({ m with undoStack := cmds.reverse ++ m.undoStack },
          Cmd.executeList cmds s) := by
  induction cmds generalizing m s with
  | nil =>
      rcases m with ⟨u, r, d, cd, cc, mx⟩
      obtain rfl : r = [] := hr
      simp [runOps, Cmd.executeList]
  | cons c rest ih =>
      rcases m with ⟨u, r, d, cd, cc, mx⟩
      obtain rfl : d = 0 := hd
      obtain rfl : r = [] := hr
      have hlen' : u.length + (c :: rest).length ≤ mx := hlen
      rw [List.length_cons] at hlen'
      have htake : (c :: u).take mx = c :: u :=
        List.take_of_length_le (by rw [List.length_cons]; omega)
      have hexec : executeCommand c
          ((⟨u, [], 0, cd, cc, mx⟩ : UndoManagerState S), s)
          = (⟨c :: u, [], 0, cd, cc, mx⟩, c.execute s) := by
        rw [executeCommand_depth0 _ _ _ rfl]
        simp [htake]
      have hstep : runOps ((c :: rest).map UndoOp.exec)
          ((⟨u, [], 0, cd, cc, mx⟩ : UndoManagerState S), s)
          = runOps (rest.map UndoOp.exec)
              (⟨c :: u, [], 0, cd, cc, mx⟩, c.execute s) := by
        simp only [List.map_cons, runOps_cons, applyOp]
        rw [hexec]
      rw [hstep,
        ih ⟨c :: u, [], 0, cd, cc, mx⟩ (c.execute s) rfl rfl
          (by show (c :: u).length + rest.length ≤ mx
              rw [List.length_cons]
              omega)]
      simp [Cmd.executeList, List.append_assoc]

/-- Undoing as many times as there are just-executed commands on top of the
undo stack folds their undos backwards; if every one of them reverses its
execute, the original domain state returns. -/
lemma undoN_restores {S : Type} (l : List (Cmd S)) :
    ∀ (u0 : List (Cmd S)) (m : UndoManagerState S) (s0 : S),
      (∀ c ∈ l, c.Reversible) → m.undoStack = l ++ u0 →
      (undoN l.length (m, Cmd.executeList l.reverse s0)).2 = s0 := by
  induction l with
  | nil =>
      intro u0 m s0 _ _
      simp [undoN, Cmd.executeList]
  | cons c rest ih =>
      intro u0 m s0 hrev hu
      have hs : Cmd.executeList (c :: rest).reverse s0
          = c.execute (Cmd.executeList rest.reverse s0) := by
        rw [List.reverse_cons, executeList_append]
        rfl
      rcases m with ⟨u, r, d, cd, cc, mx⟩
      simp only at hu
      subst hu
      simp only [List.length_cons, undoN, hs, List.cons_append]
      have hundo : undoOp
          ((⟨c :: (rest ++ u0), r, d, cd, cc, mx⟩ : UndoManagerState S),
            c.execute (Cmd.executeList rest.reverse s0))
          = (true, ⟨rest ++ u0, c :: r, d, cd, cc, mx⟩,
              c.undo (c.execute (Cmd.executeList rest.reverse s0))) := rfl
      rw [hundo]
      simp only
      rw [hrev c (by simp)]
      exact ih u0 _ s0 (fun c' hc' => hrev c' (by simp [hc'])) rfl

/-- `redo()` on an empty redo stack is a failing no-op. -/
lemma redoOp_of_empty {S : Type} (st : UndoManagerState S × S)
    (h : st.1.redoStack = []) : redoOp st = (false, st) := by
  rcases st with ⟨⟨u, r, d, cd, cc, mx⟩, s⟩
  obtain rfl : r = [] := h
  rfl

/-- `undo()` on an empty undo stack is a failing no-op. -/
lemma undoOp_of_empty {S : Type} (st : UndoManagerState S × S)
    (h : st.1.undoStack = []) : undoOp st = (false, st) := by
  rcases st with ⟨⟨u, r, d, cd, cc, mx⟩, s⟩
  obtain rfl : u = [] := h
  rfl

/-- Every entry point other than `undo()` maps a state with an empty redo
stack to a state with an empty redo stack. -/
lemma applyOp_preserves_redo_empty {S : Type} (op : UndoOp S)
    (st : UndoManagerState S × S) (hop : op.isUndo = false)
    (h : st.1.redoStack = []) : (applyOp op st).1.redoStack = [] := by
  rcases st with ⟨m, s⟩
  cases op with
  | exec c =>
      by_cases hd : 0 < m.compoundDepth
      · rw [show applyOp (UndoOp.exec c) (m, s) = executeCommand c (m, s)
            from rfl, executeCommand_depthPos c m s hd]
        exact h
      · rw [show applyOp (UndoOp.exec c) (m, s) = executeCommand c (m, s)
            from rfl, executeCommand_depth0 c m s (by omega)]
  | undo => simp [UndoOp.isUndo] at hop
  | redo =>
      rw [show applyOp UndoOp.redo (m, s) = (redoOp (m, s)).2 from rfl,
        redoOp_of_empty _ h]
      exact h
  | beginComp desc =>
      rcases m with ⟨u, r, d, cd, cc, mx⟩
      obtain rfl : r = [] := h
      simp only [applyOp, beginCompoundOperation]
      split <;> rfl
  | endComp =>
      rcases m with ⟨u, r, d, cd, cc, mx⟩
      obtain rfl : r = [] := h
      simp only [applyOp, endCompoundOperation, pushCommand_eq]
      split
      · rfl
      · split
        · split <;> rfl
        · rfl
  | clear => rfl

/-- Undo-free operation sequences keep the redo stack empty. -/
lemma runOps_preserves_redo_empty {S : Type} (ops : List (UndoOp S)) :
    ∀ (st : UndoManagerState S × S), st.1.redoStack = [] →
      (∀ op ∈ ops, op.isUndo = false) → (runOps ops st).1.redoStack = [] := by
  induction ops with
  | nil => intro st h _; exact h
  | cons op rest ih =>
      intro st h hops
      rw [runOps_cons]
      exact ih (applyOp op st)
        (applyOp_preserves_redo_empty op st (hops op (by simp)) h)
        (fun op' hop' => hops op' (by simp [hop']))

/-- Every entry point preserves the history-cap budget: the two stacks
together never hold more than `maxUndoSteps` entries, and the cap itself is
not changed. -/
lemma applyOp_bound {S : Type} (op : UndoOp S) (st : UndoManagerState S × S)
    (h : st.1.undoStack.length + st.1.redoStack.length ≤ st.1.maxUndoSteps) :
    ((applyOp op st).1.undoStack.length + (applyOp op st).1.redoStack.length
        ≤ (applyOp op st).1.maxUndoSteps)
    ∧ (applyOp op st).1.maxUndoSteps = st.1.maxUndoSteps := by
  rcases st with ⟨⟨u, r, d, cd, cc, mx⟩, s⟩
  simp only at h
  cases op with
  | exec c =>
      by_cases hd : 0 < d
      · rw [show applyOp (UndoOp.exec c) (⟨u, r, d, cd, cc, mx⟩, s)
            = executeCommand c (⟨u, r, d, cd, cc, mx⟩, s) from rfl,
          executeCommand_depthPos c _ s hd]
        exact ⟨h, rfl⟩
      · rw [show applyOp (UndoOp.exec c) (⟨u, r, d, cd, cc, mx⟩, s)
            = executeCommand c (⟨u, r, d, cd, cc, mx⟩, s) from rfl,
          executeCommand_depth0 c _ s (by show d = 0; omega)]
        refine ⟨?_, rfl⟩
        simp only [List.length_take, List.length_nil]
        omega
  | undo =>
      cases u with
      | nil => exact ⟨h, rfl⟩
      | cons top rest =>
          refine ⟨?_, rfl⟩
          simp only [applyOp, undoOp, List.length_cons] at h ⊢
          omega
  | redo =>
      cases r with
      | nil => exact ⟨h, rfl⟩
      | cons top rest =>
          refine ⟨?_, rfl⟩
          simp only [applyOp, redoOp, List.length_cons] at h ⊢
          omega
  | beginComp desc =>
      simp only [applyOp, beginCompoundOperation]
      split <;> exact ⟨h, rfl⟩
  | endComp =>
      simp only [applyOp, endCompoundOperation, pushCommand_eq]
      split
      · exact ⟨h, rfl⟩
      · split
        · split
          · exact ⟨h, rfl⟩
          · refine ⟨?_, rfl⟩
            simp only [List.length_take, List.length_nil]
            omega
        · exact ⟨h, rfl⟩
  | clear =>
      refine ⟨?_, rfl⟩
      simp [applyOp, clearHistory]

/-- The budget of `applyOp_bound` is an invariant of whole runs. -/
lemma runOps_bound {S : Type} (ops : List (UndoOp S)) :
    ∀ (st : UndoManagerState S × S),
      st.1.undoStack.length + st.1.redoStack.length ≤ st.1.maxUndoSteps →
      ((runOps ops st).1.undoStack.length
          + (runOps ops st).1.redoStack.length
          ≤ (runOps ops st).1.maxUndoSteps)
      ∧ (runOps ops st).1.maxUndoSteps = st.1.maxUndoSteps := by
  induction ops with
  | nil => intro st h; exact ⟨h, rfl⟩
  | cons op rest ih =>
      intro st h
      rw [runOps_cons]
      obtain ⟨h1, h2⟩ := applyOp_bound op st h
      obtain ⟨h3, h4⟩ := ih (applyOp op st) h1
      exact ⟨h3, h4.trans h2⟩

/-- Executing a command list inside an open compound operation only buffers:
the stacks stay put, the buffer grows in execution order, and the domain is
folded forward. -/
lemma runOps_execs_buffered {S : Type} (cmds : List (Cmd S))
    (m : UndoManagerState S) (s : S) (hd : 0 < m.compoundDepth) :
    runOps (cmds.map UndoOp.exec) (m, s)
      = ({ m with compoundCommands := m.compoundCommands ++ cmds },
          Cmd.executeList cmds s) := by
  induction cmds generalizing m s with
  | nil =>
      rcases m with ⟨u, r, d, cd, cc, mx⟩
      simp [runOps, Cmd.executeList]
  | cons c rest ih =>
      rcases m with ⟨u, r, d, cd, cc, mx⟩
      have hstep : runOps ((c :: rest).map UndoOp.exec)
          ((⟨u, r, d, cd, cc, mx⟩ : UndoManagerState S), s)
          = runOps (rest.map UndoOp.exec)
              (executeCommand c (⟨u, r, d, cd, cc, mx⟩, s)) := rfl
      rw [hstep, executeCommand_depthPos c _ s hd]
      rw [ih ⟨u, r, d, cd, cc ++ [c], mx⟩ (c.execute s) hd]
      simp [Cmd.executeList, List.append_assoc]

/-- Undoing a command list in reverse order cancels executing it in forward
order, child by child, when every child is reversible. -/
lemma undoList_executeList {S : Type} (cs : List (Cmd S))
    (hrev : ∀ c ∈ cs, c.Reversible) (s : S) :
    Cmd.undoList cs (Cmd.executeList cs s) = s := by
  induction cs generalizing s with
  | nil => rfl
  | cons c rest ih =>
      have h1 : Cmd.executeList (c :: rest) s
          = Cmd.executeList rest (c.execute s) := rfl
      have h2 : Cmd.undoList (c :: rest) (Cmd.executeList (c :: rest) s)
          = c.undo (Cmd.undoList rest (Cmd.executeList rest (c.execute s))) := by
        rw [h1]; rfl
      rw [h2, ih (fun c' hc' => hrev c' (by simp [hc'])) (c.execute s),
        hrev c (by simp)]

/-- Reverse-order undo of a list is the backwards fold of the children's
undos. -/
lemma undoList_eq_reverse_foldl {S : Type} (cs : List (Cmd S)) (s : S) :
    Cmd.undoList cs s = cs.reverse.foldl (fun a c => c.undo a) s := by
  induction cs generalizing s with
  | nil => rfl
  | cons c rest ih =>
      simp only [Cmd.undoList, List.reverse_cons, List.foldl_append,
        List.foldl_cons, List.foldl_nil]
      rw [ih]

/-- Forward execution of a list is the forwards fold of the children's
executes. -/
lemma executeList_eq_foldl {S : Type} (cs : List (Cmd S)) (s : S) :
    Cmd.executeList cs s = cs.foldl (fun a c => c.execute a) s := by
  induction cs generalizing s with
  | nil => rfl
  | cons c rest ih => simp only [Cmd.executeList, List.foldl_cons]; rw [ih]

/-! ## Claim theorems: command engine -/

/-- C2 (amended): with no compound operation open, executing `n` reversible
commands and undoing `n` times restores the exact pre-execution domain
state, provided `n` does not exceed the history cap; and
execute–undo–redo from any state outside a compound equals execute alone
(the redo reproduces the exact post-execute state, manager and domain
alike). -/
theorem execute_undo_redo_roundtrip {S : Type} :
    (∀ (M : ℕ) (cmds : List (Cmd S)) (s0 : S),
        (∀ c ∈ cmds, c.Reversible) → cmds.length ≤ M →
        (undoN cmds.length
            (runOps (cmds.map UndoOp.exec) (initialState S M, s0))).2 = s0)
    ∧ (∀ (m : UndoManagerState S) (s : S) (c : Cmd S),
        c.Reversible → m.compoundDepth = 0 →
        runOps [UndoOp.exec c, UndoOp.undo, UndoOp.redo] (m, s)
          = runOps [UndoOp.exec c] (m, s)) := by
  constructor
  · intro M cmds s0 hrev hlen
    rw [runOps_execs cmds (initialState S M) s0 rfl rfl
      (by simp [initialState]; omega)]
    have h := undoN_restores (S := S) cmds.reverse []
      { initialState S M with undoStack := cmds.reverse ++ [] } s0
      (fun c hc => hrev c (List.mem_reverse.mp hc)) (by simp [initialState])
    rw [List.length_reverse, List.reverse_reverse] at h
    exact h
  · intro m s c hrevc hd
    rcases m with ⟨u, r, d, cd, cc, mx⟩
    obtain rfl : d = 0 := hd
    have hl : runOps [UndoOp.exec c, UndoOp.undo, UndoOp.redo]
        ((⟨u, r, 0, cd, cc, mx⟩ : UndoManagerState S), s)
        = (redoOp ((undoOp
            (executeCommand c (⟨u, r, 0, cd, cc, mx⟩, s))).2)).2 := rfl
    have hr : runOps [UndoOp.exec c]
        ((⟨u, r, 0, cd, cc, mx⟩ : UndoManagerState S), s)
        = executeCommand c (⟨u, r, 0, cd, cc, mx⟩, s) := rfl
    rw [hl, hr, executeCommand_depth0 c _ s rfl]
    cases mx with
    | zero => simp [undoOp, redoOp]
    | succ mx' =>
        simp only [List.take_succ_cons]
        simp [undoOp, redoOp, hrevc s]

set_option maxRecDepth 40000 in
/-- Counterexample to C2 as frozen: with the default cap of `100`, executing
`101` reversible increment commands and undoing `101` times leaves the
domain model at `1`, not at the pre-execution state `0` — the oldest entry
was evicted by the cap, so the final undo has nothing left to reverse. -/
theorem undo_cannot_recover_beyond_cap :
    (undoN 101 (runOps (List.replicate 101 (UndoOp.exec (addCmd 1)))
        (initialState ℤ 100, 0))).2 = 1
    ∧ (1 : ℤ) ≠ 0 := by
  constructor
  · decide
  · decide

/-- Witness for C2 (amended) at two increment commands under cap `2`, and
at one increment command from a fresh manager with the default cap. -/
theorem execute_undo_redo_roundtrip_witness :
    ((∀ c ∈ [addCmd 1, addCmd 2], c.Reversible)
      ∧ [addCmd 1, addCmd 2].length ≤ 2
      ∧ Cmd.Reversible (addCmd 3)
      ∧ (initialState ℤ 100).compoundDepth = 0)
    ∧ (undoN 2 (runOps ([addCmd 1, addCmd 2].map UndoOp.exec)
          (initialState ℤ 2, 0))).2 = 0
    ∧ runOps [UndoOp.exec (addCmd 3), UndoOp.undo, UndoOp.redo]
        (initialState ℤ 100, 5)
        = runOps [UndoOp.exec (addCmd 3)] (initialState ℤ 100, 5) :=
  have hrev : ∀ k : ℤ, Cmd.Reversible (addCmd k) := fun k s => by
    simp [addCmd, Cmd.execute, Cmd.undo]
  have hmem : ∀ c ∈ [addCmd 1, addCmd 2], Cmd.Reversible c := by
    intro c hc
    simp only [List.mem_cons, List.not_mem_nil, or_false] at hc
    rcases hc with rfl | rfl
    · exact hrev 1
    · exact hrev 2
  ⟨⟨hmem, by simp, hrev 3, rfl⟩,
    execute_undo_redo_roundtrip.1 2 [addCmd 1, addCmd 2] 0 hmem (by simp),
    execute_undo_redo_roundtrip.2 (initialState ℤ 100) 5 (addCmd 3)
      (hrev 3) rfl⟩

/-- Counterexample to C3 as frozen: an `executeCommand` issued while a
compound operation is open buffers the command and does _not_ clear the redo
stack — after `execute; undo; beginCompound; execute`, the redo stack still
holds one entry and `redo()` succeeds. -/
theorem buffered_execute_keeps_redo :
    ((runOps [UndoOp.exec (addCmd 1), UndoOp.undo, UndoOp.beginComp "g",
        UndoOp.exec (addCmd 2)]
        (initialState ℤ 100, 0)).1.redoStack.length = 1)
    ∧ (redoOp (runOps [UndoOp.exec (addCmd 1), UndoOp.undo,
        UndoOp.beginComp "g", UndoOp.exec (addCmd 2)]
        (initialState ℤ 100, 0))).1 = true := by
  constructor
  · decide
  · decide

/-- C3 (amended): every `executeCommand` issued with no compound operation
open clears the redo stack; and from any redo-empty state, any sequence of
entry points that contains no `undo()` keeps the redo stack empty, so a
`redo()` call returns `false`. -/
theorem executeCommand_clears_redo_outside_compound {S : Type} :
    (∀ (m : UndoManagerState S) (s : S) (c : Cmd S), m.compoundDepth = 0 →
        (executeCommand c (m, s)).1.redoStack = [])
    ∧ (∀ (ops : List (UndoOp S)) (st : UndoManagerState S × S),
        st.1.redoStack = [] → (∀ op ∈ ops, op.isUndo = false) →
        (runOps ops st).1.redoStack = []
        ∧ (redoOp (runOps ops st)).1 = false) := by
  constructor
  · intro m s c hd
    rw [executeCommand_depth0 c m s hd]
  · intro ops st h hops
    have h1 : (runOps ops st).1.redoStack = [] :=
      runOps_preserves_redo_empty ops st h hops
    refine ⟨h1, ?_⟩
    rw [redoOp_of_empty _ h1]

/-- Witness for C3 (amended): a fresh manager, one command executed outside
any compound, then an undo-free sequence; the redo stack stays empty and
`redo()` fails. -/
theorem executeCommand_clears_redo_witness :
    ((initialState ℤ 100).compoundDepth = 0
      ∧ (executeCommand (addCmd 1)
          (initialState ℤ 100, (0:ℤ))).1.redoStack = []
      ∧ (∀ op ∈ [UndoOp.beginComp "x", UndoOp.endComp,
            UndoOp.redo, UndoOp.clear (S := ℤ)], op.isUndo = false))
    ∧ (runOps [UndoOp.beginComp "x", UndoOp.endComp, UndoOp.redo,
          UndoOp.clear]
        (executeCommand (addCmd 1)
          (initialState ℤ 100, (0:ℤ)))).1.redoStack = []
    ∧ (redoOp (runOps [UndoOp.beginComp "x", UndoOp.endComp, UndoOp.redo,
          UndoOp.clear]
        (executeCommand (addCmd 1)
          (initialState ℤ 100, (0:ℤ))))).1 = false :=
  have hmem : ∀ op ∈ [UndoOp.beginComp "x", UndoOp.endComp,
      UndoOp.redo, UndoOp.clear (S := ℤ)], op.isUndo = false := by
    intro op hop
    simp only [List.mem_cons, List.not_mem_nil, or_false] at hop
    rcases hop with rfl | rfl | rfl | rfl <;> rfl
  have hcleared : (executeCommand (addCmd 1)
      (initialState ℤ 100, (0:ℤ))).1.redoStack = [] :=
    executeCommand_clears_redo_outside_compound.1 (initialState ℤ 100) 0
      (addCmd 1) rfl
  ⟨⟨rfl, hcleared, hmem⟩,
    (executeCommand_clears_redo_outside_compound.2
        [UndoOp.beginComp "x", UndoOp.endComp, UndoOp.redo, UndoOp.clear]
        (executeCommand (addCmd 1) (initialState ℤ 100, (0:ℤ)))
        hcleared hmem).1,
    (executeCommand_clears_redo_outside_compound.2
        [UndoOp.beginComp "x", UndoOp.endComp, UndoOp.redo, UndoOp.clear]
        (executeCommand (addCmd 1) (initialState ℤ 100, (0:ℤ)))
        hcleared hmem).2⟩

set_option maxRecDepth 80000 in
/-- C4: in every state reachable from a fresh manager, the undo stack never
exceeds the cap; and the 150-command scenario under the default cap `100`
(commands adding `1, 2, …, 150`): exactly `100` entries remain, the domain
holds `11325 = 1 + ⋯ + 150`, 100 undos empty the stack and leave
`1275 = 1 + ⋯ + 50` (only the oldest 50 evicted commands' effects remain,
unrecoverable), and a 101st undo fails. -/
theorem undo_stack_bounded_fifo :
    (∀ (S : Type) (M : ℕ) (s0 : S) (ops : List (UndoOp S)),
        (runOps ops (initialState S M, s0)).1.undoStack.length ≤ M)
    ∧ ((runOps ((List.range 150).map
            (fun i => UndoOp.exec (addCmd ((i : ℤ) + 1))))
          (initialState ℤ 100, 0)).1.undoStack.length = 100
        ∧ (runOps ((List.range 150).map
            (fun i => UndoOp.exec (addCmd ((i : ℤ) + 1))))
          (initialState ℤ 100, 0)).2 = 11325
        ∧ (undoN 100 (runOps ((List.range 150).map
            (fun i => UndoOp.exec (addCmd ((i : ℤ) + 1))))
          (initialState ℤ 100, 0))).1.undoStack.length = 0
        ∧ (undoN 100 (runOps ((List.range 150).map
            (fun i => UndoOp.exec (addCmd ((i : ℤ) + 1))))
          (initialState ℤ 100, 0))).2 = 1275
        ∧ (undoOp (undoN 100 (runOps ((List.range 150).map
            (fun i => UndoOp.exec (addCmd ((i : ℤ) + 1))))
          (initialState ℤ 100, 0)))).1 = false) := by
  constructor
  · intro S M s0 ops
    obtain ⟨h1, h2⟩ := runOps_bound ops (initialState S M, s0)
      (by simp [initialState])
    have h3 : (initialState S M).maxUndoSteps = M := rfl
    rw [show ((initialState S M, s0) : UndoManagerState S × S).1
        = initialState S M from rfl, h3] at h2
    omega
  · refine ⟨by decide, by decide, by decide, by decide, by decide⟩

/-- C5: a `CompoundCommand` executes its children in forward order and
undoes them in reverse order; a compound scope around `k` executed commands
produces exactly one undo-stack entry (holding the children), and a single
`undo()` afterwards succeeds and reverses all the children's effects,
restoring the pre-scope domain state. -/
theorem compound_scope_single_entry {S : Type} :
    (∀ (d : String) (cs : List (Cmd S)) (s : S),
        (Cmd.compound d cs).execute s = cs.foldl (fun a c => c.execute a) s
        ∧ (Cmd.compound d cs).undo s
            = cs.reverse.foldl (fun a c => c.undo a) s)
    ∧ (∀ (d : String) (cmds : List (Cmd S)) (m : UndoManagerState S) (s : S),
        m.compoundDepth = 0 → cmds ≠ [] → (∀ c ∈ cmds, c.Reversible) →
        1 ≤ m.maxUndoSteps →
        (runOps (UndoOp.beginComp d :: cmds.map UndoOp.exec
              ++ [UndoOp.endComp]) (m, s)).1.undoStack
          = (Cmd.compound d cmds :: m.undoStack).take m.maxUndoSteps
        ∧ (runOps (UndoOp.beginComp d :: cmds.map UndoOp.exec
              ++ [UndoOp.endComp]) (m, s)).2 = Cmd.executeList cmds s
        ∧ (undoOp (runOps (UndoOp.beginComp d :: cmds.map UndoOp.exec
              ++ [UndoOp.endComp]) (m, s))).1 = true
        ∧ (undoOp (runOps (UndoOp.beginComp d :: cmds.map UndoOp.exec
              ++ [UndoOp.endComp]) (m, s))).2.2 = s) := by
  constructor
  · intro d cs s
    exact ⟨executeList_eq_foldl cs s, undoList_eq_reverse_foldl cs s⟩
  · intro d cmds m s hd hne hrev hmax
    rcases m with ⟨u, r, dep, cd, cc, mx⟩
    obtain rfl : dep = 0 := hd
    obtain ⟨c0, cmds', rfl⟩ : ∃ c0 cmds', cmds = c0 :: cmds' := by
      cases cmds with
      | nil => exact absurd rfl hne
      | cons c0 cmds' => exact ⟨c0, cmds', rfl⟩
    have hmax' : 1 ≤ mx := hmax
    obtain ⟨mx', rfl⟩ : ∃ k, mx = k + 1 := ⟨mx - 1, by omega⟩
    have h1 : runOps (UndoOp.beginComp d :: (c0 :: cmds').map UndoOp.exec
          ++ [UndoOp.endComp]) ((⟨u, r, 0, cd, cc, mx' + 1⟩ :
            UndoManagerState S), s)
        = runOps ((c0 :: cmds').map UndoOp.exec ++ [UndoOp.endComp])
            (⟨u, r, 1, d, [], mx' + 1⟩, s) := by
      rw [show (UndoOp.beginComp d :: (c0 :: cmds').map UndoOp.exec
          ++ [UndoOp.endComp])
          = UndoOp.beginComp d :: ((c0 :: cmds').map UndoOp.exec
              ++ [UndoOp.endComp]) from rfl, runOps_cons]
      congr 1
    rw [h1, runOps_append,
      runOps_execs_buffered (c0 :: cmds') _ s (by norm_num)]
    have h2 : ({ (⟨u, r, 1, d, [], mx' + 1⟩ : UndoManagerState S) with
          compoundCommands := [] ++ c0 :: cmds' } : UndoManagerState S)
        = ⟨u, r, 1, d, c0 :: cmds', mx' + 1⟩ := by
      simp
    rw [h2]
    have h3 : runOps [UndoOp.endComp]
        ((⟨u, r, 1, d, c0 :: cmds', mx' + 1⟩ : UndoManagerState S),
          Cmd.executeList (c0 :: cmds') s)
        = (⟨(Cmd.compound d (c0 :: cmds') :: u).take (mx' + 1), [], 0, d,
            [], mx' + 1⟩, Cmd.executeList (c0 :: cmds') s) := by
      rw [show runOps [UndoOp.endComp]
          ((⟨u, r, 1, d, c0 :: cmds', mx' + 1⟩ : UndoManagerState S),
            Cmd.executeList (c0 :: cmds') s)
          = (endCompoundOperation ⟨u, r, 1, d, c0 :: cmds', mx' + 1⟩,
              Cmd.executeList (c0 :: cmds') s) from rfl]
      rw [show endCompoundOperation
          (⟨u, r, 1, d, c0 :: cmds', mx' + 1⟩ : UndoManagerState S)
          = pushCommand (.compound d (c0 :: cmds'))
              ⟨u, r, 0, d, [], mx' + 1⟩ from rfl]
      rw [pushCommand_eq]
    rw [h3]
    refine ⟨rfl, rfl, ?_, ?_⟩
    · rw [List.take_succ_cons]
      rfl
    · rw [List.take_succ_cons]
      rw [show (undoOp ((⟨Cmd.compound d (c0 :: cmds') :: u.take mx', [], 0,
            d, [], mx' + 1⟩ : UndoManagerState S),
            Cmd.executeList (c0 :: cmds') s)).2.2
          = (Cmd.compound d (c0 :: cmds')).undo
              (Cmd.executeList (c0 :: cmds') s) from rfl]
      rw [show (Cmd.compound d (c0 :: cmds')).undo
            (Cmd.executeList (c0 :: cmds') s)
          = Cmd.undoList (c0 :: cmds') (Cmd.executeList (c0 :: cmds') s)
          from rfl]
      exact undoList_executeList (c0 :: cmds') hrev s

/-- Witness for C5: scope `"grp"` around the three increment commands
`+1, +2, +3` on a fresh manager with the default cap. -/
theorem compound_scope_witness :
    ((initialState ℤ 100).compoundDepth = 0
      ∧ [addCmd 1, addCmd 2, addCmd 3] ≠ []
      ∧ (∀ c ∈ [addCmd 1, addCmd 2, addCmd 3], c.Reversible)
      ∧ 1 ≤ (initialState ℤ 100).maxUndoSteps)
    ∧ (runOps (UndoOp.beginComp "grp"
          :: [addCmd 1, addCmd 2, addCmd 3].map UndoOp.exec
          ++ [UndoOp.endComp]) (initialState ℤ 100, 0)).1.undoStack
        = (Cmd.compound "grp" [addCmd 1, addCmd 2, addCmd 3]
            :: (initialState ℤ 100).undoStack).take
              (initialState ℤ 100).maxUndoSteps
    ∧ (undoOp (runOps (UndoOp.beginComp "grp"
          :: [addCmd 1, addCmd 2, addCmd 3].map UndoOp.exec
          ++ [UndoOp.endComp]) (initialState ℤ 100, 0))).1 = true
    ∧ (undoOp (runOps (UndoOp.beginComp "grp"
          :: [addCmd 1, addCmd 2, addCmd 3].map UndoOp.exec
          ++ [UndoOp.endComp]) (initialState ℤ 100, 0))).2.2 = 0 :=
  have hmem : ∀ c ∈ [addCmd 1, addCmd 2, addCmd 3], Cmd.Reversible c := by
    intro c hc
    simp only [List.mem_cons, List.not_mem_nil, or_false] at hc
    have hrev : ∀ k : ℤ, Cmd.Reversible (addCmd k) := fun k s => by
      simp [addCmd, Cmd.execute, Cmd.undo]
    rcases hc with rfl | rfl | rfl
    · exact hrev 1
    · exact hrev 2
    · exact hrev 3
  ⟨⟨rfl, by simp, hmem, by norm_num [initialState]⟩,
    (compound_scope_single_entry.2 "grp" [addCmd 1, addCmd 2, addCmd 3]
      (initialState ℤ 100) 0 rfl (by simp) hmem
      (by norm_num [initialState])).1,
    (compound_scope_single_entry.2 "grp" [addCmd 1, addCmd 2, addCmd 3]
      (initialState ℤ 100) 0 rfl (by simp) hmem
      (by norm_num [initialState])).2.2.1,
    (compound_scope_single_entry.2 "grp" [addCmd 1, addCmd 2, addCmd 3]
      (initialState ℤ 100) 0 rfl (by simp) hmem
      (by norm_num [initialState])).2.2.2⟩

/-- C6: `undo()` fails with `false` and changes nothing on an empty undo
stack and otherwise pops, undoes, pushes onto the redo stack and returns
`true`; `redo()` is symmetric; `canUndo`/`canRedo` are exactly the
non-emptiness of the respective stacks.  All operations are total functions
of the state — failure is only ever reported through the boolean result. -/
theorem undo_redo_boolean_semantics {S : Type} :
    (∀ (m : UndoManagerState S) (s : S), m.undoStack = [] →
        undoOp (m, s) = (false, m, s))
    ∧ (∀ (m : UndoManagerState S) (s : S) (top : Cmd S)
          (rest : List (Cmd S)), m.undoStack = top :: rest →
        undoOp (m, s) = (true,
          { m with undoStack := rest, redoStack := top :: m.redoStack },
          top.undo s))
    ∧ (∀ (m : UndoManagerState S) (s : S), m.redoStack = [] →
        redoOp (m, s) = (false, m, s))
    ∧ (∀ (m : UndoManagerState S) (s : S) (top : Cmd S)
          (rest : List (Cmd S)), m.redoStack = top :: rest →
        redoOp (m, s) = (true,
          { m with redoStack := rest, undoStack := top :: m.undoStack },
          top.execute s))
    ∧ (∀ m : UndoManagerState S, canUndo m = true ↔ m.undoStack ≠ [])
    ∧ (∀ m : UndoManagerState S, canRedo m = true ↔ m.redoStack ≠ []) := by
  refine ⟨?_, ?_, ?_, ?_, ?_, ?_⟩
  · intro m s h
    exact undoOp_of_empty (m, s) h
  · intro m s top rest h
    rcases m with ⟨u, r, dep, cd, cc, mx⟩
    obtain rfl : u = top :: rest := h
    rfl
  · intro m s h
    exact redoOp_of_empty (m, s) h
  · intro m s top rest h
    rcases m with ⟨u, r, dep, cd, cc, mx⟩
    obtain rfl : r = top :: rest := h
    rfl
  · intro m
    rcases m with ⟨u, r, dep, cd, cc, mx⟩
    cases u <;> simp [canUndo]
  · intro m
    rcases m with ⟨u, r, dep, cd, cc, mx⟩
    cases r <;> simp [canRedo]

/-- Witness for C6: the empty cases on a fresh manager, and the pop cases on
explicit one-entry stacks. -/
theorem undo_redo_boolean_semantics_witness :
    ((initialState ℤ 100).undoStack = []
      ∧ (initialState ℤ 100).redoStack = []
      ∧ ((⟨[addCmd 1], [], 0, "", [], 100⟩ :
            UndoManagerState ℤ)).undoStack = addCmd 1 :: []
      ∧ ((⟨[], [addCmd 2], 0, "", [], 100⟩ :
            UndoManagerState ℤ)).redoStack = addCmd 2 :: [])
    ∧ undoOp (initialState ℤ 100, (0:ℤ)) = (false, initialState ℤ 100, 0)
    ∧ redoOp (initialState ℤ 100, (0:ℤ)) = (false, initialState ℤ 100, 0)
    ∧ undoOp ((⟨[addCmd 1], [], 0, "", [], 100⟩ : UndoManagerState ℤ),
          (5:ℤ))
        = (true, { (⟨[addCmd 1], [], 0, "", [], 100⟩ : UndoManagerState ℤ)
              with undoStack := [],
                   redoStack := addCmd 1 ::
                     (⟨[addCmd 1], [], 0, "", [], 100⟩ :
                       UndoManagerState ℤ).redoStack },
            (addCmd 1).undo 5)
    ∧ redoOp ((⟨[], [addCmd 2], 0, "", [], 100⟩ : UndoManagerState ℤ),
          (7:ℤ))
        = (true, { (⟨[], [addCmd 2], 0, "", [], 100⟩ : UndoManagerState ℤ)
              with redoStack := [],
                   undoStack := addCmd 2 ::
                     (⟨[], [addCmd 2], 0, "", [], 100⟩ :
                       UndoManagerState ℤ).undoStack },
            (addCmd 2).execute 7) :=
  ⟨⟨rfl, rfl, rfl, rfl⟩,
    undo_redo_boolean_semantics.1 (initialState ℤ 100) 0 rfl,
    undo_redo_boolean_semantics.2.2.1 (initialState ℤ 100) 0 rfl,
    undo_redo_boolean_semantics.2.1 ⟨[addCmd 1], [], 0, "", [], 100⟩ 5
      (addCmd 1) [] rfl,
    undo_redo_boolean_semantics.2.2.2.1 ⟨[], [addCmd 2], 0, "", [], 100⟩ 7
      (addCmd 2) [] rfl⟩

/-- C9: a sequence of drag-preview notifications, of any length, leaves the
committed point list and the whole command-engine state (both stacks)
unchanged — preview lives only in the editor's rendering state — and that
preview state is cleared by a committed-points change of the editor's lane
and by a gesture cancel. -/
theorem preview_commits_nothing {S : Type} :
    (∀ (events : List (ℕ × ℕ × ℝ × ℝ)) (sys : AutomationSystem S),
        (runPreviews events sys).committedPoints = sys.committedPoints
        ∧ (runPreviews events sys).history = sys.history)
    ∧ (∀ sys : AutomationSystem S,
        (notifyPointsChanged sys sys.editor.laneId).editor.previewPointId
          = none)
    ∧ (∀ sys : AutomationSystem S,
        (cancelDragGesture sys).editor.previewPointId = none) := by
  refine ⟨?_, ?_, ?_⟩
  · intro events
    induction events with
    | nil => intro sys; exact ⟨rfl, rfl⟩
    | cons e rest ih =>
        intro sys
        have hstep : runPreviews (e :: rest) sys
            = runPreviews rest
                (notifyPointDragPreview sys e.1 e.2.1 e.2.2.1 e.2.2.2) :=
          rfl
        rw [hstep]
        obtain ⟨h1, h2⟩ :=
          ih (notifyPointDragPreview sys e.1 e.2.1 e.2.2.1 e.2.2.2)
        exact ⟨h1, h2⟩
  · intro sys
    simp [notifyPointsChanged, editorPointsChanged]
  · intro sys
    rfl

end Magda
